import Mathlib

/-!
Shallow embedding for verification of the position-ID codec in
`src/infinity_pools_sdk/models/data_models.py` (`encode_position_id`,
`decode_position_id`) and of the Quad fixed-point converters in
`src/infinity_pools_sdk/utils/quad.py` (`decimal_to_quad`, `quad_to_decimal`).

Python's arbitrary-precision integers are modelled by `Int`; bitwise
operations on them use Mathlib's two's-complement `Int.land` / `Int.lor` and
the `Int` shift instances, which share Python's semantics.  `int(owner, 16)`
is modelled by `pyHexParse`, `f"0x{v:040x}"` by `"0x" ++ pyFormatHex040 v`,
and a raised `ValueError` by `Except.error`.
-/

/-- Whitespace characters that Python's `int(s, 16)` strips around the
literal. -/
def isPySpace (c : Char) : Bool :=
  c = ' ' || c = '\t' || c = '\n' || c = '\r' || c = '\x0b' || c = '\x0c'

/-- Strip leading and trailing whitespace, as `int(owner, 16)` does. -/
def stripPySpace (l : List Char) : List Char :=
  ((l.dropWhile isPySpace).reverse.dropWhile isPySpace).reverse

/-- Value of one hexadecimal digit character; `none` for non-digits.  The
code points are 48-57 for `0`-`9`, 97-102 for `a`-`f` and 65-70 for
`A`-`F`. -/
def hexDigitVal (c : Char) : Option Nat :=
  let n := c.toNat
  if 48 ≤ n && n ≤ 57 then some (n - 48)
  else if 97 ≤ n && n ≤ 102 then some (n - 87)
  else if 65 ≤ n && n ≤ 70 then some (n - 55)
  else none

/-- Accumulating scanner for the digit part of a Python base-16 integer
literal: after a digit, a single underscore may separate it from the next
digit. -/
def parseHexGo (acc : Nat) : List Char → Option Nat
  | [] => some acc
  | c :: rest =>
    if c = '_' then
      match rest with
      | [] => none
      | c2 :: rest2 =>
        match hexDigitVal c2 with
        | some d => parseHexGo (16 * acc + d) rest2
        | none => none
    else
      match hexDigitVal c with
      | some d => parseHexGo (16 * acc + d) rest
      | none => none

/-- A nonempty run of hex digits that must start with a digit (underscores
are only allowed between digits). -/
def parseHexSeq : List Char → Option Nat
  | [] => none
  | c :: rest =>
    match hexDigitVal c with
    | some d => parseHexGo d rest
    | none => none

/-- After a `0x`/`0X` base marker Python additionally allows one underscore
before the first digit. -/
def parseAfterBase : List Char → Option Nat
  | [] => none
  | c :: t => if c = '_' then parseHexSeq t else parseHexSeq (c :: t)

/-- Optional sign character; returns (isNegative, rest). -/
def pySign : List Char → Bool × List Char
  | [] => (false, [])
  | c :: t =>
    if c = '+' then (false, t)
    else if c = '-' then (true, t)
    else (false, c :: t)

/-- Magnitude part of a Python base-16 literal: optional `0x`/`0X` marker,
then hex digits. -/
def pyMagnitude : List Char → Option Nat
  | [] => none
  | [c] => parseHexSeq [c]
  | c1 :: c2 :: t =>
    if c1 = '0' && (c2 = 'x' || c2 = 'X') then parseAfterBase t
    else parseHexSeq (c1 :: c2 :: t)

/-- Model of Python `int(s, 16)`: optional surrounding whitespace, optional
sign, optional `0x`/`0X` base marker, hex digits with single underscores
between digits.  `none` models a raised `ValueError`. -/
def pyHexParse (s : String) : Option Int :=
  let l := stripPySpace s.data
  let sl := pySign l
  match pyMagnitude sl.2 with
  | none => none
  | some n => some (if sl.1 then -(n : Int) else (n : Int))

/-- Lower-case hex digit character for a value below 16 (as Python `%x`):
code point `48 + d` for a decimal digit, `87 + d` (giving `a`-`f`) above. -/
def hexDigitChar (d : Nat) : Char :=
  Char.ofNat (if d < 10 then 48 + d else 87 + d)

/-- Most-significant-first hex digits of `n`, prepended to `acc`.  The
first argument is fuel, kept at least `n` so the recursion never runs
out. -/
def natToHexCore : Nat → Nat → List Char → List Char
  | 0, _, acc => acc
  | fuel + 1, n, acc =>
    if n = 0 then acc
    else natToHexCore fuel (n / 16) (hexDigitChar (n % 16) :: acc)

/-- Hex rendering of a natural number, lower-case, `"0"` for zero (the digit
string Python's `x` format presentation produces). -/
def natToHex (n : Nat) : List Char :=
  if n = 0 then ['0'] else natToHexCore n n []

/-- Zero-pad a digit string on the left to the given width. -/
def padZeros (width : Nat) (l : List Char) : List Char :=
  List.replicate (width - l.length) '0' ++ l

/-- Python `f"{v:040x}"`: sign-aware zero padding to width 40, lower-case
hex digits. -/
def pyFormatHex040 (v : Int) : String :=
  if v < 0 then ⟨'-' :: padZeros 39 (natToHex v.natAbs)⟩
  else ⟨padZeros 40 (natToHex v.toNat)⟩

/- Constants of the codec, mirroring `data_models.py`. -/

def _OWNER_BITS : Nat := 160

def _TICK_BITS : Nat := 24

def _TICK_MASK : Nat := (1 <<< _TICK_BITS) - 1

def _TICK_SIGN_BIT : Nat := 1 <<< (_TICK_BITS - 1)

def _TICK_LOWER_SHIFT : Nat := _TICK_BITS

def _OWNER_SHIFT : Nat := _TICK_LOWER_SHIFT + _TICK_BITS

/-- The packing expression of `encode_position_id` after the owner address
has been parsed: mask both ticks to 24 bits with `&`, then combine
`(owner_int << 48) | (tick_lower_encoded << 24) | tick_upper_encoded`. -/
def encodeVal (owner_int tick_lower tick_upper : Int) : Int :=
  let tick_lower_encoded := Int.land tick_lower (_TICK_MASK : Int)
  let tick_upper_encoded := Int.land tick_upper (_TICK_MASK : Int)
  Int.lor
    (Int.lor (owner_int <<< (_OWNER_SHIFT : Int))
      (tick_lower_encoded <<< (_TICK_LOWER_SHIFT : Int)))
    tick_upper_encoded

/-- `encode_position_id(owner, tick_lower, tick_upper)`.  The
`ValueError` raised for an unparsable owner string is modelled by
`Except.error` with the source's message. -/
def encode_position_id (owner : String) (tick_lower tick_upper : Int) :
    Except String Int :=
  match pyHexParse owner with
  | none =>
    Except.error ("Invalid owner address format: " ++ owner ++
      ". Must be a hex string.")
  | some owner_int => Except.ok (encodeVal owner_int tick_lower tick_upper)

/-- `decode_position_id(position_id)`: split off the three fields with
shifts and masks, render the owner as `f"0x{owner_int:040x}"`, and undo the
24-bit two's-complement representation of each tick. -/
def decode_position_id (position_id : Int) : String × Int × Int :=
  let owner_int := position_id >>> _OWNER_SHIFT
  let owner_hex := "0x" ++ pyFormatHex040 owner_int
  let tick_lower_encoded :=
    Int.land (position_id >>> _TICK_LOWER_SHIFT) (_TICK_MASK : Int)
  let tick_upper_encoded := Int.land position_id (_TICK_MASK : Int)
  let tick_lower :=
    if tick_lower_encoded ≥ (_TICK_SIGN_BIT : Int) then
      tick_lower_encoded - (1 <<< (_TICK_BITS : Int))
    else tick_lower_encoded
  let tick_upper :=
    if tick_upper_encoded ≥ (_TICK_SIGN_BIT : Int) then
      tick_upper_encoded - (1 <<< (_TICK_BITS : Int))
    else tick_upper_encoded
  (owner_hex, tick_lower, tick_upper)

/-- Modelled from the spec: `normalize` "lower-cases the hex digits and
zero-pads the address to 40 digits with a 0x prefix", i.e. it re-renders the
parsed owner value in the canonical lower-case 40-digit `0x`-prefixed
form. -/
def normalizeOwner (s : String) : Option String :=
  (pyHexParse s).map (fun v => "0x" ++ pyFormatHex040 v)

/-- `16 ^ (number of hex digits of n)` (1 for `n = 0`), fuelled like
`natToHexCore`; used to relate rendering and parsing. -/
def pw16Core : Nat → Nat → Nat
  | 0, _ => 1
  | fuel + 1, n => if n = 0 then 1 else 16 * pw16Core fuel (n / 16)

/-!
Model of Python's `decimal.Decimal` as used by `utils/quad.py`.  A `Decimal`
stores an exact sign/coefficient/exponent triple with value `c * 10^e`;
arithmetic operations round their result to the context precision, which is
28 significant digits with ROUND_HALF_EVEN in the default context that
`quad.py` runs under (its module comment mentions — but does not set — a
global precision).
-/

/-- A Python `Decimal` value `c * 10^e` (finite values only; the codec paths
under verification never produce NaN or infinity). -/
structure PyDecimal where
  c : Int
  e : Int
deriving DecidableEq

/-- Number of decimal digits of `n` (1 for `n = 0`); first argument is fuel,
kept at least `n`. -/
def numDigitsCore : Nat → Nat → Nat
  | 0, _ => 1
  | fuel + 1, n => if n < 10 then 1 else numDigitsCore fuel (n / 10) + 1

/-- Number of decimal digits of a coefficient, as Python's
`len(digits)`. -/
def numDigits (n : Nat) : Nat := numDigitsCore n n

/-- Python `decimal` default context precision (`getcontext().prec`). -/
def PY_DEC_PREC : Nat := 28

/-- `QUAD_PRECISION = 18` from `utils/quad.py`. -/
def QUAD_PRECISION : Nat := 18

/-- Round `n / 10^k` to a natural number with ROUND_HALF_EVEN (the default
`decimal` rounding). -/
def rheDiv (n k : Nat) : Nat :=
  let q := n / 10 ^ k
  let r := n % 10 ^ k
  if 2 * r > 10 ^ k then q + 1
  else if 2 * r < 10 ^ k then q
  else if q % 2 = 0 then q else q + 1

/-- Round a `Decimal` to the context precision: when the coefficient has
more than 28 digits, drop the excess digits with ROUND_HALF_EVEN (on the
magnitude, as `decimal` does) and raise the exponent accordingly. -/
def roundCtx (d : PyDecimal) : PyDecimal :=
  let digits := numDigits d.c.natAbs
  if digits ≤ PY_DEC_PREC then d
  else
    let k := digits - PY_DEC_PREC
    let m := rheDiv d.c.natAbs k
    ⟨if d.c < 0 then -(m : Int) else (m : Int), d.e + k⟩

/-- Python `Decimal.__mul__`: exact product, then context rounding. -/
def ctxMul (a b : PyDecimal) : PyDecimal :=
  roundCtx ⟨a.c * b.c, a.e + b.e⟩

/-- `Decimal(10) ** k`: Python computes the exact power `1E+k` (coefficient
1, exponent `k`, well within the context precision for `k = 18`). -/
def decPow10 (k : Nat) : PyDecimal := ⟨1, (k : Int)⟩

/-- Python `Decimal.__truediv__` by the exact power `1E+k`: the exact
quotient only shifts the exponent down by `k`, after which the context
rounds the result to 28 significant digits. -/
def ctxDivPow10 (a : PyDecimal) (k : Nat) : PyDecimal :=
  roundCtx ⟨a.c, a.e - (k : Int)⟩

/-- Python `int(d)` on a `Decimal`: truncation toward zero. -/
def intTrunc (d : PyDecimal) : Int :=
  if 0 ≤ d.e then d.c * 10 ^ d.e.toNat
  else (d.c).tdiv (10 ^ (-d.e).toNat)

/-- `decimal_to_quad(value)` from `utils/quad.py`:
`int(value * (Decimal(10) ** QUAD_PRECISION))`. -/
def decimal_to_quad (value : PyDecimal) : Int :=
  intTrunc (ctxMul value (decPow10 QUAD_PRECISION))

/-- `quad_to_decimal(value)` from `utils/quad.py`:
`Decimal(value) / (Decimal(10) ** QUAD_PRECISION)`. -/
def quad_to_decimal (value : Int) : PyDecimal :=
  ctxDivPow10 ⟨value, 0⟩ QUAD_PRECISION

/-- Python `Decimal.__eq__`: numeric value equality,
`c₁·10^e₁ = c₂·10^e₂`. -/
def pyDecEq (a b : PyDecimal) : Prop :=
  a.c * 10 ^ (a.e - min a.e b.e).toNat = b.c * 10 ^ (b.e - min a.e b.e).toNat

instance (a b : PyDecimal) : Decidable (pyDecEq a b) := by
  unfold pyDecEq; infer_instance

/-! ### Bridge lemmas: Python bitwise operations as arithmetic -/

theorem xor_two_pow_sub_one : ∀ (w : Nat), ∀ m < 2 ^ w, (2 ^ w - 1) ^^^ m = 2 ^ w - 1 - m := by
  intro w
  induction w with
  | zero =>
    intro m hm
    interval_cases m
    decide
  | succ w ih =>
    intro m hm
    have hp : 2 ^ (w + 1) = 2 * 2 ^ w := by rw [pow_succ]; ring
    have hpos : 1 ≤ 2 ^ w := Nat.one_le_two_pow
    set x := (2 ^ (w + 1) - 1) ^^^ m with hx
    have h1 : x / 2 = (2 ^ w - 1) ^^^ (m / 2) := by
      rw [hx, Nat.xor_div_two]
      congr 1
      omega
    have h2 : x % 2 = (2 ^ (w + 1) - 1 + m) % 2 := by rw [hx, Nat.xor_mod_two_eq]
    have h3 : m / 2 < 2 ^ w := by omega
    have h4 := ih (m / 2) h3
    have h5 := Nat.div_add_mod x 2
    have h6 := Nat.div_add_mod m 2
    omega

theorem ldiff_two_pow_sub_one (w m : Nat) :
    Nat.ldiff (2 ^ w - 1) m = (2 ^ w - 1) ^^^ (m % 2 ^ w) := by
  apply Nat.eq_of_testBit_eq
  intro i
  rw [Nat.testBit_ldiff, Nat.testBit_xor, Nat.testBit_mod_two_pow,
    Nat.testBit_two_pow_sub_one]
  by_cases h : i < w
  · simp [h]
  · simp [h]

theorem ldiff_mask_eq (m : Nat) :
    Nat.ldiff (2 ^ 24 - 1) m = 2 ^ 24 - 1 - m % 2 ^ 24 := by
  rw [ldiff_two_pow_sub_one]
  exact xor_two_pow_sub_one 24 (m % 2 ^ 24) (Nat.mod_lt _ (by norm_num))

theorem tick_mask_eq : _TICK_MASK = 2 ^ 24 - 1 := by
  norm_num [_TICK_MASK, _TICK_BITS, Nat.shiftLeft_eq]

/-- Python's `t & 0xFFFFFF` on an arbitrary-precision two's-complement
integer equals the nonnegative residue `t mod 2^24`. -/
theorem int_land_mask (t : Int) :
    Int.land t ((_TICK_MASK : Nat) : Int) = t % 16777216 := by
  rw [tick_mask_eq]
  cases t with
  | ofNat m =>
    have h0 : Int.land (Int.ofNat m) ((2 ^ 24 - 1 : Nat) : Int) =
        ((m &&& (2 ^ 24 - 1) : Nat) : Int) := rfl
    rw [h0, Nat.and_pow_two_sub_one_eq_mod]
    show ((m % 2 ^ 24 : Nat) : Int) = (m : Int) % 16777216
    omega
  | negSucc m =>
    have h0 : Int.land (Int.negSucc m) ((2 ^ 24 - 1 : Nat) : Int) =
        ((Nat.ldiff (2 ^ 24 - 1) m : Nat) : Int) := rfl
    rw [h0, ldiff_mask_eq, Int.negSucc_eq]
    omega

theorem pack_or_eq_add (o tl tu : Nat) (h1 : tl < 2 ^ 24) (h2 : tu < 2 ^ 24) :
    (o <<< 48 ||| tl <<< 24) ||| tu = o * 2 ^ 48 + tl * 2 ^ 24 + tu := by
  have e0 : o <<< 48 = 2 ^ 48 * o := by rw [Nat.shiftLeft_eq]; ring
  have e1 : tl <<< 24 = 2 ^ 24 * tl := by rw [Nat.shiftLeft_eq]; ring
  have e2 : o <<< 48 ||| tl <<< 24 = 2 ^ 48 * o + 2 ^ 24 * tl := by
    rw [e0, e1, ← Nat.mul_add_lt_is_or (show 2 ^ 24 * tl < 2 ^ 48 by omega) o]
  have e3 : 2 ^ 48 * o + 2 ^ 24 * tl = 2 ^ 24 * (2 ^ 24 * o + tl) := by ring
  rw [e2, e3, ← Nat.mul_add_lt_is_or h2 (2 ^ 24 * o + tl)]
  ring

theorem int_lor_coe (a b : Nat) :
    Int.lor ((a : Nat) : Int) ((b : Nat) : Int) = ((a ||| b : Nat) : Int) := rfl

theorem int_land_coe (a b : Nat) :
    Int.land ((a : Nat) : Int) ((b : Nat) : Int) = ((a &&& b : Nat) : Int) := rfl

/-- `encodeVal` over a nonnegative owner and Nat images of the masked ticks,
as plain arithmetic. -/
theorem encodeVal_natCast (o a b : Nat) (tl tu : Int)
    (ha : tl % 16777216 = (a : Int)) (hb : tu % 16777216 = (b : Int)) :
    encodeVal (o : Int) tl tu = ((o * 2 ^ 48 + a * 2 ^ 24 + b : Nat) : Int) := by
  have hllt : tl % 16777216 < 16777216 := Int.emod_lt_of_pos tl (by norm_num)
  have hult : tu % 16777216 < 16777216 := Int.emod_lt_of_pos tu (by norm_num)
  have hA : a < 2 ^ 24 := by omega
  have hB : b < 2 ^ 24 := by omega
  simp only [encodeVal]
  rw [int_land_mask, int_land_mask, ha, hb,
    Int.shiftLeft_coe_nat, Int.shiftLeft_coe_nat, int_lor_coe, int_lor_coe]
  rw [show _OWNER_SHIFT = 48 from rfl, show _TICK_LOWER_SHIFT = 24 from rfl]
  exact_mod_cast pack_or_eq_add o a b hA hB

/-- `decode_position_id` on a nonnegative position id, as plain
arithmetic. -/
theorem decode_natCast (n : Nat) :
    decode_position_id ((n : Nat) : Int) =
      ("0x" ++ pyFormatHex040 ((n / 2 ^ 48 : Nat) : Int),
       (if 2 ^ 23 ≤ (n / 2 ^ 24) % 2 ^ 24 then
          (((n / 2 ^ 24) % 2 ^ 24 : Nat) : Int) - 2 ^ 24
        else (((n / 2 ^ 24) % 2 ^ 24 : Nat) : Int)),
       (if 2 ^ 23 ≤ n % 2 ^ 24 then ((n % 2 ^ 24 : Nat) : Int) - 2 ^ 24
        else ((n % 2 ^ 24 : Nat) : Int))) := by
  have hland : ∀ a : Nat, Int.land ((a : Nat) : Int) ((_TICK_MASK : Nat) : Int) =
      ((a % 2 ^ 24 : Nat) : Int) := by
    intro a
    rw [int_land_coe]
    rw [show (a &&& _TICK_MASK) = a % 2 ^ 24 by
      rw [tick_mask_eq]; exact Nat.and_pow_two_sub_one_eq_mod a 24]
  have hsb : ((_TICK_SIGN_BIT : Nat) : Int) = ((2 ^ 23 : Nat) : Int) := by
    norm_num [_TICK_SIGN_BIT, _TICK_BITS, Nat.shiftLeft_eq]
  have hone : (1 : Int) <<< ((_TICK_BITS : Nat) : Int) = (16777216 : Int) := by decide
  simp only [decode_position_id]
  rw [show ((n : Nat) : Int) >>> _OWNER_SHIFT = ((n >>> 48 : Nat) : Int) from rfl,
    show ((n : Nat) : Int) >>> _TICK_LOWER_SHIFT = ((n >>> 24 : Nat) : Int) from rfl,
    hland, hland, hsb, hone, Nat.shiftRight_eq_div_pow, Nat.shiftRight_eq_div_pow]
  refine congrArg₂ Prod.mk rfl (congrArg₂ Prod.mk ?_ ?_)
  · split_ifs with h1 h2 <;> push_cast at * <;> omega
  · split_ifs with h1 h2 <;> push_cast at * <;> omega

/-! ### Rendering and re-parsing of owner addresses -/

theorem hexDigitChar_val : ∀ d, d < 16 → hexDigitVal (hexDigitChar d) = some d := by decide

theorem hexDigitChar_ne_underscore : ∀ d, d < 16 → ¬ hexDigitChar d = '_' := by decide

theorem hexDigitChar_not_space : ∀ d, d < 16 → isPySpace (hexDigitChar d) = false := by decide

theorem parseHexGo_cons_digit (a d : Nat) (c : Char) (rest : List Char)
    (hc : hexDigitVal c = some d) (hne : ¬ c = '_') :
    parseHexGo a (c :: rest) = parseHexGo (16 * a + d) rest := by
  rw [parseHexGo.eq_def]
  simp only
  rw [if_neg hne, hc]

theorem parseHexGo_zeros : ∀ (j : Nat) (l : List Char),
    parseHexGo 0 (List.replicate j '0' ++ l) = parseHexGo 0 l := by
  intro j
  induction j with
  | zero => intro l; rfl
  | succ j ih =>
    intro l
    rw [List.replicate_succ, List.cons_append,
      parseHexGo_cons_digit 0 0 '0' _ (by decide) (by decide)]
    simpa using ih l

theorem parseHexSeq_digit_head (c : Char) (d : Nat) (rest : List Char)
    (hc : hexDigitVal c = some d) :
    parseHexSeq (c :: rest) = parseHexGo d rest := by
  simp [parseHexSeq, hc]

theorem natToHexCore_zero (fuel : Nat) (acc : List Char) :
    natToHexCore fuel 0 acc = acc := by
  cases fuel <;> rfl

theorem natToHexCore_spec : ∀ (fuel n a : Nat) (acc : List Char), n ≤ fuel →
    parseHexGo a (natToHexCore fuel n acc) =
      parseHexGo (a * pw16Core fuel n + n) acc := by
  intro fuel
  induction fuel with
  | zero =>
    intro n a acc hn
    have h0 : n = 0 := Nat.le_zero.mp hn
    subst h0
    simp [natToHexCore, pw16Core]
  | succ fuel ih =>
    intro n a acc hn
    by_cases h0 : n = 0
    · subst h0; simp [natToHexCore, pw16Core]
    · rw [show natToHexCore (fuel + 1) n acc =
          natToHexCore fuel (n / 16) (hexDigitChar (n % 16) :: acc) from by
            simp [natToHexCore, h0]]
      rw [show pw16Core (fuel + 1) n = 16 * pw16Core fuel (n / 16) from by
        simp [pw16Core, h0]]
      rw [ih (n / 16) a _ (by omega)]
      rw [parseHexGo_cons_digit _ (n % 16) _ _ (hexDigitChar_val _ (by omega))
        (hexDigitChar_ne_underscore _ (by omega))]
      have harith : 16 * (a * pw16Core fuel (n / 16) + n / 16) + n % 16 =
          a * (16 * pw16Core fuel (n / 16)) + n := by
        have h := Nat.div_add_mod n 16
        rw [show a * (16 * pw16Core fuel (n / 16)) =
          16 * (a * pw16Core fuel (n / 16)) from by ring]
        omega
      rw [harith]

theorem natToHexCore_head : ∀ (fuel n : Nat) (acc : List Char), n ≠ 0 → n ≤ fuel →
    ∃ d rest, d < 16 ∧ natToHexCore fuel n acc = hexDigitChar d :: rest := by
  intro fuel
  induction fuel with
  | zero => intro n acc h0 hn; omega
  | succ fuel ih =>
    intro n acc h0 hn
    rw [show natToHexCore (fuel + 1) n acc =
        natToHexCore fuel (n / 16) (hexDigitChar (n % 16) :: acc) from by
          simp [natToHexCore, h0]]
    by_cases hq : n / 16 = 0
    · rw [hq, natToHexCore_zero]
      exact ⟨n % 16, acc, by omega, rfl⟩
    · exact ih (n / 16) _ hq (by omega)

theorem natToHexCore_chars : ∀ (fuel n : Nat) (acc : List Char),
    (∀ c ∈ acc, ∃ d, d < 16 ∧ c = hexDigitChar d) →
    ∀ c ∈ natToHexCore fuel n acc, ∃ d, d < 16 ∧ c = hexDigitChar d := by
  intro fuel
  induction fuel with
  | zero =>
    intro n acc hacc
    intro c hc
    rw [show natToHexCore 0 n acc = acc from rfl] at hc
    exact hacc c hc
  | succ fuel ih =>
    intro n acc hacc
    by_cases h0 : n = 0
    · subst h0
      rw [natToHexCore_zero]
      exact hacc
    · rw [show natToHexCore (fuel + 1) n acc =
          natToHexCore fuel (n / 16) (hexDigitChar (n % 16) :: acc) from by
            simp [natToHexCore, h0]]
      apply ih
      intro c hc
      rcases List.mem_cons.mp hc with h | h
      · exact ⟨n % 16, by omega, h⟩
      · exact hacc c h

theorem natToHex_chars (v : Nat) :
    ∀ c ∈ natToHex v, ∃ d, d < 16 ∧ c = hexDigitChar d := by
  by_cases h0 : v = 0
  · subst h0
    intro c hc
    rw [show natToHex 0 = ['0'] from rfl, List.mem_singleton] at hc
    exact ⟨0, by norm_num, by rw [hc]; decide⟩
  · rw [natToHex, if_neg h0]
    exact natToHexCore_chars v v [] (by simp)

theorem parseHexGo_value (v : Nat) :
    parseHexGo 0 (natToHexCore v v []) = some v := by
  rw [natToHexCore_spec v v 0 [] le_rfl]
  simp [parseHexGo]

theorem parseAfterBase_pad (v : Nat) :
    parseAfterBase (padZeros 40 (natToHex v)) = some v := by
  by_cases h0 : v = 0
  · subst h0; decide
  · rw [natToHex, if_neg h0]
    obtain ⟨d, rest, hd, hshape⟩ := natToHexCore_head v v [] h0 le_rfl
    have hval : parseHexGo 0 (natToHexCore v v []) = some v := parseHexGo_value v
    unfold padZeros
    cases hk : 40 - (natToHexCore v v []).length with
    | zero =>
      rw [List.replicate_zero, List.nil_append, hshape]
      simp only [parseAfterBase]
      rw [if_neg (hexDigitChar_ne_underscore d hd),
        parseHexSeq_digit_head _ d _ (hexDigitChar_val d hd)]
      rw [hshape, parseHexGo_cons_digit 0 d _ _ (hexDigitChar_val d hd)
        (hexDigitChar_ne_underscore d hd)] at hval
      simpa using hval
    | succ k =>
      rw [List.replicate_succ, List.cons_append]
      simp only [parseAfterBase]
      rw [if_neg (by decide : ¬ ('0' : Char) = '_'),
        parseHexSeq_digit_head '0' 0 _ (by decide), parseHexGo_zeros k _]
      exact hval

theorem dropWhile_eq_self_of (p : Char → Bool) (l : List Char)
    (h : ∀ c ∈ l, p c = false) : l.dropWhile p = l := by
  cases l with
  | nil => rfl
  | cons c t => simp [List.dropWhile_cons, h c (by simp)]

theorem stripPySpace_eq_self (l : List Char) (h : ∀ c ∈ l, isPySpace c = false) :
    stripPySpace l = l := by
  unfold stripPySpace
  rw [dropWhile_eq_self_of _ _ h,
    dropWhile_eq_self_of _ _ (fun c hc => h c (List.mem_reverse.mp hc))]
  exact List.reverse_reverse l

theorem pyFormatHex040_natCast (v : Nat) :
    pyFormatHex040 ((v : Nat) : Int) = String.mk (padZeros 40 (natToHex v)) := by
  unfold pyFormatHex040
  rw [if_neg (show ¬ ((v : Nat) : Int) < 0 by omega)]
  norm_num

/-- Re-parsing the canonical rendered owner address recovers its value. -/
theorem pyHexParse_render (v : Nat) :
    pyHexParse ("0x" ++ pyFormatHex040 ((v : Nat) : Int)) = some ((v : Nat) : Int) := by
  rw [pyFormatHex040_natCast]
  have hchars : ∀ c ∈ padZeros 40 (natToHex v), ∃ d, d < 16 ∧ c = hexDigitChar d := by
    intro c hc
    unfold padZeros at hc
    rcases List.mem_append.mp hc with h | h
    · exact ⟨0, by norm_num, by rw [List.eq_of_mem_replicate h]; decide⟩
    · exact natToHex_chars v c h
  have hspace : ∀ c ∈ ('0' :: 'x' :: padZeros 40 (natToHex v)), isPySpace c = false := by
    intro c hc
    rcases List.mem_cons.mp hc with h | h
    · rw [h]; decide
    · rcases List.mem_cons.mp h with h2 | h2
      · rw [h2]; decide
      · obtain ⟨d, hd, rfl⟩ := hchars c h2
        exact hexDigitChar_not_space d hd
  have hdata : ("0x" ++ String.mk (padZeros 40 (natToHex v))).data
      = '0' :: 'x' :: padZeros 40 (natToHex v) := rfl
  simp only [pyHexParse]
  rw [hdata, stripPySpace_eq_self _ hspace]
  rw [show pySign ('0' :: 'x' :: padZeros 40 (natToHex v)) =
      (false, '0' :: 'x' :: padZeros 40 (natToHex v)) from by
    rw [pySign.eq_def]; simp only; rw [if_neg (by decide), if_neg (by decide)]]
  rw [show pyMagnitude ('0' :: 'x' :: padZeros 40 (natToHex v)) =
      parseAfterBase (padZeros 40 (natToHex v)) from by
    rw [pyMagnitude.eq_def]; simp only; rw [if_pos (by decide)]]
  rw [parseAfterBase_pad]
  simp

/-! ### Encode reductions and the master round trip -/

theorem encode_ok (s : String) (v tl tu : Int) (h : pyHexParse s = some v) :
    encode_position_id s tl tu = Except.ok (encodeVal v tl tu) := by
  unfold encode_position_id
  rw [h]

theorem encode_err (s : String) (tl tu : Int) (h : pyHexParse s = none) :
    encode_position_id s tl tu =
      Except.error ("Invalid owner address format: " ++ s ++
        ". Must be a hex string.") := by
  unfold encode_position_id
  rw [h]

/-- Decoding an encoded position recovers the canonical owner rendering and
both in-range ticks. -/
theorem roundtrip_core (o : Nat) (tl tu : Int)
    (h1 : -8388608 ≤ tl) (h2 : tl ≤ 8388607)
    (h3 : -8388608 ≤ tu) (h4 : tu ≤ 8388607) :
    decode_position_id (encodeVal ((o : Nat) : Int) tl tu) =
      ("0x" ++ pyFormatHex040 ((o : Nat) : Int), tl, tu) := by
  have hlnn : 0 ≤ tl % 16777216 := Int.emod_nonneg tl (by norm_num)
  have hunn : 0 ≤ tu % 16777216 := Int.emod_nonneg tu (by norm_num)
  have hllt : tl % 16777216 < 16777216 := Int.emod_lt_of_pos tl (by norm_num)
  have hult : tu % 16777216 < 16777216 := Int.emod_lt_of_pos tu (by norm_num)
  have ha : tl % 16777216 = (((tl % 16777216).toNat : Nat) : Int) :=
    (Int.toNat_of_nonneg hlnn).symm
  have hb : tu % 16777216 = (((tu % 16777216).toNat : Nat) : Int) :=
    (Int.toNat_of_nonneg hunn).symm
  set a := (tl % 16777216).toNat with hadef
  set b := (tu % 16777216).toNat with hbdef
  have hA : a < 2 ^ 24 := by omega
  have hB : b < 2 ^ 24 := by omega
  rw [encodeVal_natCast o a b tl tu ha hb, decode_natCast]
  have e1 : (o * 2 ^ 48 + a * 2 ^ 24 + b) / 2 ^ 48 = o := by omega
  have e2 : ((o * 2 ^ 48 + a * 2 ^ 24 + b) / 2 ^ 24) % 2 ^ 24 = a := by omega
  have e3 : (o * 2 ^ 48 + a * 2 ^ 24 + b) % 2 ^ 24 = b := by omega
  rw [e1, e2, e3]
  refine congrArg₂ Prod.mk rfl (congrArg₂ Prod.mk ?_ ?_)
  · split_ifs with h <;> omega
  · split_ifs with h <;> omega

/-! ### The claims -/

/-- C1: for every owner string that parses as a hexadecimal integer
representable in 160 bits and every `lowerBoundary` and `upperBoundary` in
`[-8388608, 8388607]`, decoding the encoded position id returns exactly
`(normalize owner, lowerBoundary, upperBoundary)`, where `normalize`
lower-cases the hex digits and zero-pads the address to 40 digits with a
`0x` prefix. -/
theorem C1_roundtrip (s : String) (v lo hi : Int)
    (hparse : pyHexParse s = some v) (hv0 : 0 ≤ v) (hv : v < 2 ^ 160)
    (hlo1 : -8388608 ≤ lo) (hlo2 : lo ≤ 8388607)
    (hhi1 : -8388608 ≤ hi) (hhi2 : hi ≤ 8388607) :
    ∃ pid norm, encode_position_id s lo hi = Except.ok pid ∧
      normalizeOwner s = some norm ∧
      decode_position_id pid = (norm, lo, hi) := by
  obtain ⟨o, rfl⟩ := Int.eq_ofNat_of_zero_le hv0
  refine ⟨encodeVal ((o : Nat) : Int) lo hi, "0x" ++ pyFormatHex040 ((o : Nat) : Int),
    encode_ok s _ lo hi hparse, ?_, ?_⟩
  · unfold normalizeOwner
    rw [hparse]
    rfl
  · exact roundtrip_core o lo hi hlo1 hlo2 hhi1 hhi2

set_option maxRecDepth 8000 in
theorem C1_witness : ∃ pid norm,
    encode_position_id "0xAb" (-887272) 887272 = Except.ok pid ∧
    normalizeOwner "0xAb" = some norm ∧
    decode_position_id pid = (norm, -887272, 887272) :=
  C1_roundtrip "0xAb" 171 (-887272) 887272 (by decide) (by decide) (by decide)
    (by decide) (by decide) (by decide) (by decide)

/-- C2: for every owner string parsing to `owner_int` and all integer
ticks, `encode_position_id` returns exactly
`(owner_int << 48) | ((lowerBoundary & 0xFFFFFF) << 24) | (upperBoundary & 0xFFFFFF)`. -/
theorem C2_encode_formula (s : String) (v lo hi : Int)
    (hparse : pyHexParse s = some v) :
    encode_position_id s lo hi =
      Except.ok (Int.lor (Int.lor (v <<< (48 : Int))
        ((Int.land lo 0xFFFFFF) <<< (24 : Int))) (Int.land hi 0xFFFFFF)) := by
  rw [encode_ok s v lo hi hparse]
  rfl

theorem C2_witness :
    encode_position_id "0xAb" (-5) 7 =
      Except.ok (Int.lor (Int.lor ((171 : Int) <<< (48 : Int))
        ((Int.land (-5) 0xFFFFFF) <<< (24 : Int))) (Int.land 7 0xFFFFFF)) :=
  C2_encode_formula "0xAb" 171 (-5) 7 (by decide)

/-- C3: for every non-negative integer position id, `decode_position_id`
returns the owner as the hex rendering of `positionId >> 48`, zero-padded
to 40 digits with a `0x` prefix, and each boundary as the sign extension of
its 24-bit raw field `raw = (positionId >> 24) & 0xFFFFFF` (lower) and
`raw = positionId & 0xFFFFFF` (upper): `raw - 2^24` when `raw ≥ 2^23`,
otherwise `raw`. -/
theorem C3_decode_formula (n : Nat) :
    decode_position_id ((n : Nat) : Int) =
      ("0x" ++ String.mk (padZeros 40 (natToHex (n >>> 48))),
       (if ((n >>> 24) &&& 0xFFFFFF : Nat) ≥ 2 ^ 23 then
          (((n >>> 24) &&& 0xFFFFFF : Nat) : Int) - 2 ^ 24
        else (((n >>> 24) &&& 0xFFFFFF : Nat) : Int)),
       (if (n &&& 0xFFFFFF : Nat) ≥ 2 ^ 23 then ((n &&& 0xFFFFFF : Nat) : Int) - 2 ^ 24
        else ((n &&& 0xFFFFFF : Nat) : Int))) := by
  have hmask : ∀ m : Nat, m &&& 0xFFFFFF = m % 2 ^ 24 := fun m =>
    Nat.and_pow_two_sub_one_eq_mod m 24
  rw [decode_natCast, pyFormatHex040_natCast]
  rw [Nat.shiftRight_eq_div_pow, Nat.shiftRight_eq_div_pow, hmask, hmask]

set_option maxRecDepth 8000 in
/-- C4 counterexample: with owner `"0x1"` (so `owner_int = 1`) and zero
ticks, the code returns `2^48`, while the claim's composition
`(owner_int << 208) | (masked_lower << 24) | masked_upper` would give
`2^208`. -/
theorem C4_counterexample :
    encode_position_id "0x1" 0 0 = Except.ok 281474976710656 ∧
    (281474976710656 : Int) = 2 ^ 48 ∧
    Int.lor (Int.lor ((1 : Int) <<< (208 : Int))
        ((Int.land (0 : Int) 0xFFFFFF) <<< (24 : Int))) (Int.land (0 : Int) 0xFFFFFF) =
      411376139330301510538742295639337626245683966408394965837152256 ∧
    (411376139330301510538742295639337626245683966408394965837152256 : Int) = 2 ^ 208 ∧
    (281474976710656 : Int) ≠
      411376139330301510538742295639337626245683966408394965837152256 :=
  ⟨rfl, by norm_num, by decide, by norm_num, by decide⟩

/-- C4 (amended): `encode_position_id` composes its result as
`(owner_int << 48) | (masked_lowerBoundary << 24) | masked_upperBoundary`
— the owner shift is `_OWNER_SHIFT = 24 + 24 = 48`, not 208. -/
theorem C4_amended_composition (s : String) (v lo hi : Int)
    (hparse : pyHexParse s = some v) :
    encode_position_id s lo hi =
      Except.ok (Int.lor (Int.lor (v <<< ((_OWNER_SHIFT : Nat) : Int))
        ((Int.land lo 0xFFFFFF) <<< ((_TICK_LOWER_SHIFT : Nat) : Int)))
        (Int.land hi 0xFFFFFF)) ∧ _OWNER_SHIFT = 48 := by
  refine ⟨?_, rfl⟩
  rw [encode_ok s v lo hi hparse]
  rfl

theorem C4_amended_witness :
    (encode_position_id "0x2" (-1) 1 =
      Except.ok (Int.lor (Int.lor ((2 : Int) <<< ((_OWNER_SHIFT : Nat) : Int))
        ((Int.land (-1) 0xFFFFFF) <<< ((_TICK_LOWER_SHIFT : Nat) : Int)))
        (Int.land 1 0xFFFFFF))) ∧ _OWNER_SHIFT = 48 :=
  C4_amended_composition "0x2" 2 (-1) 1 (by decide)

/-- C5: `encode` and `decode` form a bijection between valid triples and
token identifiers: re-encoding the three components decoded from any
`n < 2^208` yields `n` back, and encoding any valid 160-bit owner with
in-range ticks produces a nonnegative integer below `2^208`. -/
theorem C5_bijection :
    (∀ n : Nat, n < 2 ^ 208 →
      encode_position_id (decode_position_id ((n : Nat) : Int)).1
          (decode_position_id ((n : Nat) : Int)).2.1
          (decode_position_id ((n : Nat) : Int)).2.2 = Except.ok ((n : Nat) : Int)) ∧
    (∀ (s : String) (v lo hi : Int), pyHexParse s = some v → 0 ≤ v → v < 2 ^ 160 →
      -8388608 ≤ lo → lo ≤ 8388607 → -8388608 ≤ hi → hi ≤ 8388607 →
      ∃ pid : Int, encode_position_id s lo hi = Except.ok pid ∧
        0 ≤ pid ∧ pid < 2 ^ 208) := by
  constructor
  · intro n hn
    rw [decode_natCast]
    dsimp only
    rw [encode_ok _ _ _ _ (pyHexParse_render (n / 2 ^ 48))]
    have ha : (if 2 ^ 23 ≤ (n / 2 ^ 24) % 2 ^ 24 then
          ((((n / 2 ^ 24) % 2 ^ 24 : Nat)) : Int) - 2 ^ 24
        else ((((n / 2 ^ 24) % 2 ^ 24 : Nat)) : Int)) % 16777216 =
          ((((n / 2 ^ 24) % 2 ^ 24 : Nat)) : Int) := by
      split_ifs <;> omega
    have hb : (if 2 ^ 23 ≤ n % 2 ^ 24 then ((n % 2 ^ 24 : Nat) : Int) - 2 ^ 24
        else ((n % 2 ^ 24 : Nat) : Int)) % 16777216 = ((n % 2 ^ 24 : Nat) : Int) := by
      split_ifs <;> omega
    rw [encodeVal_natCast (n / 2 ^ 48) ((n / 2 ^ 24) % 2 ^ 24) (n % 2 ^ 24) _ _ ha hb]
    congr 1
    omega
  · intro s v lo hi hp hv0 hv hlo1 hlo2 hhi1 hhi2
    obtain ⟨o, rfl⟩ := Int.eq_ofNat_of_zero_le hv0
    have hlnn : 0 ≤ lo % 16777216 := Int.emod_nonneg lo (by norm_num)
    have hunn : 0 ≤ hi % 16777216 := Int.emod_nonneg hi (by norm_num)
    have hllt : lo % 16777216 < 16777216 := Int.emod_lt_of_pos lo (by norm_num)
    have hult : hi % 16777216 < 16777216 := Int.emod_lt_of_pos hi (by norm_num)
    have ha : lo % 16777216 = (((lo % 16777216).toNat : Nat) : Int) :=
      (Int.toNat_of_nonneg hlnn).symm
    have hb : hi % 16777216 = (((hi % 16777216).toNat : Nat) : Int) :=
      (Int.toNat_of_nonneg hunn).symm
    refine ⟨_, encode_ok s _ lo hi hp, ?_⟩
    rw [encodeVal_natCast o (lo % 16777216).toNat (hi % 16777216).toNat lo hi ha hb]
    have h208 : (2 : Int) ^ 208 = ((2 ^ 208 : Nat) : Int) := by norm_num
    have h160 : (2 : Int) ^ 160 = ((2 ^ 160 : Nat) : Int) := by norm_num
    rw [h208]
    rw [h160] at hv
    constructor
    · omega
    · omega

set_option maxRecDepth 8000 in
theorem C5_witness :
    (encode_position_id (decode_position_id ((281474976710656 : Nat) : Int)).1
        (decode_position_id ((281474976710656 : Nat) : Int)).2.1
        (decode_position_id ((281474976710656 : Nat) : Int)).2.2 =
      Except.ok ((281474976710656 : Nat) : Int)) ∧
    (∃ pid : Int, encode_position_id "0xAb" (-5) 7 = Except.ok pid ∧
      0 ≤ pid ∧ pid < 2 ^ 208) :=
  ⟨C5_bijection.1 281474976710656 (by norm_num),
   C5_bijection.2 "0xAb" 171 (-5) 7 (by decide) (by decide) (by decide) (by decide)
     (by decide) (by decide) (by decide)⟩

/-- C6: `encode_position_id` accepts out-of-range ticks without raising and
depends on each tick only through its value modulo `2^24`; in particular
tick `8388608` collides with the distinct valid tick `-8388608` for every
upper tick. -/
theorem C6_wraparound (s : String) (v : Int) (hparse : pyHexParse s = some v) :
    (∀ tl tl2 tu tu2 : Int, tl % 16777216 = tl2 % 16777216 →
        tu % 16777216 = tu2 % 16777216 →
        encode_position_id s tl tu = encode_position_id s tl2 tu2) ∧
    (∀ u : Int, encode_position_id s 8388608 u = encode_position_id s (-8388608) u ∧
      ∃ pid : Int, encode_position_id s 8388608 u = Except.ok pid) := by
  have hdep : ∀ tl tl2 tu tu2 : Int, tl % 16777216 = tl2 % 16777216 →
      tu % 16777216 = tu2 % 16777216 → encodeVal v tl tu = encodeVal v tl2 tu2 := by
    intro tl tl2 tu tu2 h1 h2
    simp only [encodeVal]
    rw [int_land_mask, int_land_mask, int_land_mask, int_land_mask, h1, h2]
  constructor
  · intro tl tl2 tu tu2 h1 h2
    rw [encode_ok s v _ _ hparse, encode_ok s v _ _ hparse, hdep _ _ _ _ h1 h2]
  · intro u
    refine ⟨?_, encodeVal v 8388608 u, encode_ok s v _ _ hparse⟩
    rw [encode_ok s v _ _ hparse, encode_ok s v _ _ hparse,
      hdep 8388608 (-8388608) u u (by decide) rfl]

theorem C6_witness :
    (∀ tl tl2 tu tu2 : Int, tl % 16777216 = tl2 % 16777216 →
        tu % 16777216 = tu2 % 16777216 →
        encode_position_id "0xF" tl tu = encode_position_id "0xF" tl2 tu2) ∧
    (∀ u : Int, encode_position_id "0xF" 8388608 u =
        encode_position_id "0xF" (-8388608) u ∧
      ∃ pid : Int, encode_position_id "0xF" 8388608 u = Except.ok pid) :=
  C6_wraparound "0xF" 15 (by decide)

/-- C7: `encode_position_id` raises the invalid-address error exactly when
the owner cannot be parsed as a hexadecimal integer — the only error
condition in the codec — and `encode("not-a-hex-string", 0, 0)` raises it
with the source's message. -/
theorem C7_error_condition :
    (∀ (s : String) (tl tu : Int),
      (∃ e, encode_position_id s tl tu = Except.error e) ↔ pyHexParse s = none) ∧
    encode_position_id "not-a-hex-string" 0 0 =
      Except.error
        "Invalid owner address format: not-a-hex-string. Must be a hex string." := by
  constructor
  · intro s tl tu
    constructor
    · rintro ⟨e, he⟩
      cases hp : pyHexParse s with
      | none => rfl
      | some v =>
        rw [encode_ok s v tl tu hp] at he
        simp at he
    · intro hp
      exact ⟨_, encode_err s tl tu hp⟩
  · rw [encode_err _ 0 0 (by decide),
      show "Invalid owner address format: " ++ "not-a-hex-string" ++
          ". Must be a hex string." =
        "Invalid owner address format: not-a-hex-string. Must be a hex string." from
          by decide]

/-- C8: `decode_position_id` is total on nonnegative inputs of any
magnitude (including values at or above `2^208`): it always returns a
triple, with both decoded ticks inside the signed 24-bit range. -/
theorem C8_decode_total (p : Int) (hp : 0 ≤ p) :
    ∃ owner tl tu, decode_position_id p = (owner, tl, tu) ∧
      -8388608 ≤ tl ∧ tl ≤ 8388607 ∧ -8388608 ≤ tu ∧ tu ≤ 8388607 := by
  obtain ⟨n, rfl⟩ := Int.eq_ofNat_of_zero_le hp
  rw [decode_natCast]
  refine ⟨_, _, _, rfl, ?_, ?_, ?_, ?_⟩
  · split_ifs <;> omega
  · split_ifs <;> omega
  · split_ifs <;> omega
  · split_ifs <;> omega

theorem C8_witness :
    ∃ owner tl tu,
      decode_position_id
        2037035976334486086268445688409378161051468393665936250636140449354381299763336706183409721
        = (owner, tl, tu) ∧
      -8388608 ≤ tl ∧ tl ≤ 8388607 ∧ -8388608 ≤ tu ∧ tu ≤ 8388607 :=
  C8_decode_total
    2037035976334486086268445688409378161051468393665936250636140449354381299763336706183409721
    (by decide)

/-- C9: the three fields occupy disjoint bit ranges — changing only the
upper tick leaves the decoded owner and lower tick unchanged, changing only
the lower tick leaves the decoded owner and upper tick unchanged, and
changing only the owner leaves both decoded ticks unchanged. -/
theorem C9_field_independence (s s2 : String) (v v2 lo lo2 hi hi2 : Int)
    (hp : pyHexParse s = some v) (hv0 : 0 ≤ v) (hv : v < 2 ^ 160)
    (hp2 : pyHexParse s2 = some v2) (hv20 : 0 ≤ v2) (hv2 : v2 < 2 ^ 160)
    (hlo1 : -8388608 ≤ lo) (hlo2 : lo ≤ 8388607)
    (hlo21 : -8388608 ≤ lo2) (hlo22 : lo2 ≤ 8388607)
    (hhi1 : -8388608 ≤ hi) (hhi2 : hi ≤ 8388607)
    (hhi21 : -8388608 ≤ hi2) (hhi22 : hi2 ≤ 8388607) :
    ((encode_position_id s lo hi2).map decode_position_id).map
        (fun r => (r.1, r.2.1)) =
      ((encode_position_id s lo hi).map decode_position_id).map
        (fun r => (r.1, r.2.1)) ∧
    ((encode_position_id s lo2 hi).map decode_position_id).map
        (fun r => (r.1, r.2.2)) =
      ((encode_position_id s lo hi).map decode_position_id).map
        (fun r => (r.1, r.2.2)) ∧
    ((encode_position_id s2 lo hi).map decode_position_id).map (fun r => r.2) =
      ((encode_position_id s lo hi).map decode_position_id).map (fun r => r.2) := by
  obtain ⟨o, rfl⟩ := Int.eq_ofNat_of_zero_le hv0
  obtain ⟨o2, rfl⟩ := Int.eq_ofNat_of_zero_le hv20
  rw [encode_ok s _ lo hi hp, encode_ok s _ lo hi2 hp, encode_ok s _ lo2 hi hp,
    encode_ok s2 _ lo hi hp2]
  simp only [Except.map]
  rw [roundtrip_core o lo hi hlo1 hlo2 hhi1 hhi2,
    roundtrip_core o lo hi2 hlo1 hlo2 hhi21 hhi22,
    roundtrip_core o lo2 hi hlo21 hlo22 hhi1 hhi2,
    roundtrip_core o2 lo hi hlo1 hlo2 hhi1 hhi2]
  exact ⟨rfl, rfl, rfl⟩

set_option maxRecDepth 8000 in
theorem C9_witness :
    ((encode_position_id "0xAb" (-5) 9).map decode_position_id).map
        (fun r => (r.1, r.2.1)) =
      ((encode_position_id "0xAb" (-5) 7).map decode_position_id).map
        (fun r => (r.1, r.2.1)) ∧
    ((encode_position_id "0xAb" (-6) 7).map decode_position_id).map
        (fun r => (r.1, r.2.2)) =
      ((encode_position_id "0xAb" (-5) 7).map decode_position_id).map
        (fun r => (r.1, r.2.2)) ∧
    ((encode_position_id "0xF" (-5) 7).map decode_position_id).map (fun r => r.2) =
      ((encode_position_id "0xAb" (-5) 7).map decode_position_id).map (fun r => r.2) :=
  C9_field_independence "0xAb" "0xF" 171 15 (-5) (-6) 7 9 (by decide) (by decide)
    (by decide) (by decide) (by decide) (by decide) (by decide) (by decide)
    (by decide) (by decide) (by decide) (by decide) (by decide) (by decide)

/-! ### The Quad fixed-point converters (C10) -/

theorem numDigitsCore_pos : ∀ (fuel n : Nat), 1 ≤ numDigitsCore fuel n := by
  intro fuel
  induction fuel with
  | zero => intro n; exact Nat.le_refl 1
  | succ fuel ih =>
    intro n
    by_cases h : n < 10
    · simp [numDigitsCore, h]
    · rw [show numDigitsCore (fuel + 1) n = numDigitsCore fuel (n / 10) + 1 from by
        simp [numDigitsCore, h]]
      omega

theorem numDigitsCore_le_iff : ∀ (fuel n k : Nat), n ≤ fuel → 1 ≤ k →
    (numDigitsCore fuel n ≤ k ↔ n < 10 ^ k) := by
  intro fuel
  induction fuel with
  | zero =>
    intro n k hn hk
    have h0 : n = 0 := by omega
    subst h0
    have hp : 0 < 10 ^ k := pow_pos (by norm_num) k
    show 1 ≤ k ↔ 0 < 10 ^ k
    exact ⟨fun _ => hp, fun _ => hk⟩
  | succ fuel ih =>
    intro n k hn hk
    by_cases h10 : n < 10
    · rw [show numDigitsCore (fuel + 1) n = 1 from by simp [numDigitsCore, h10]]
      have h10k : 10 ≤ 10 ^ k := by
        calc (10 : Nat) = 10 ^ 1 := (pow_one 10).symm
        _ ≤ 10 ^ k := Nat.pow_le_pow_right (by norm_num) hk
      exact ⟨fun _ => by omega, fun _ => hk⟩
    · rw [show numDigitsCore (fuel + 1) n = numDigitsCore fuel (n / 10) + 1 from by
        simp [numDigitsCore, h10]]
      have hpos := numDigitsCore_pos fuel (n / 10)
      by_cases hk1 : k = 1
      · subst hk1
        rw [pow_one]
        exact ⟨fun h => by omega, fun h => by omega⟩
      · have hk2 : 1 ≤ k - 1 := by omega
        have hih := ih (n / 10) (k - 1) (by omega) hk2
        have hpow : (10 : Nat) ^ k = 10 * 10 ^ (k - 1) := by
          cases k with
          | zero => omega
          | succ k' =>
            rw [Nat.add_sub_cancel, pow_succ]
            ring
        constructor
        · intro h
          have h1 : numDigitsCore fuel (n / 10) ≤ k - 1 := by omega
          have h2 := hih.mp h1
          omega
        · intro h
          have h1 : n / 10 < 10 ^ (k - 1) := by omega
          have h2 := hih.mpr h1
          omega

theorem numDigits_le_iff (n k : Nat) (hk : 1 ≤ k) :
    numDigits n ≤ k ↔ n < 10 ^ k :=
  numDigitsCore_le_iff n n k (Nat.le_refl n) hk

theorem rheDiv_exact (n k : Nat) (hd : 10 ^ k ∣ n) :
    rheDiv n k = n / 10 ^ k := by
  have hp : 0 < 10 ^ k := pow_pos (by norm_num) k
  have hr : n % 10 ^ k = 0 := Nat.mod_eq_zero_of_dvd hd
  simp only [rheDiv]
  rw [hr, if_neg (by omega), if_pos (by omega)]

theorem roundCtx_small (d : PyDecimal) (h : d.c.natAbs < 10 ^ 28) :
    roundCtx d = d := by
  have hle : numDigits d.c.natAbs ≤ PY_DEC_PREC :=
    (numDigits_le_iff _ 28 (by norm_num)).mpr h
  simp [roundCtx, hle]

theorem roundCtx_big (d : PyDecimal) (h : ¬ numDigits d.c.natAbs ≤ PY_DEC_PREC) :
    roundCtx d =
      ⟨(if d.c < 0 then
          -((rheDiv d.c.natAbs (numDigits d.c.natAbs - PY_DEC_PREC) : Nat) : Int)
        else ((rheDiv d.c.natAbs (numDigits d.c.natAbs - PY_DEC_PREC) : Nat) : Int)),
        d.e + ((numDigits d.c.natAbs - PY_DEC_PREC : Nat) : Int)⟩ := by
  simp [roundCtx, h]

theorem ctxMul_pow10 (d : PyDecimal) :
    ctxMul d (decPow10 QUAD_PRECISION) = roundCtx ⟨d.c, d.e + 18⟩ := by
  show roundCtx ⟨d.c * 1, d.e + ((18 : Nat) : Int)⟩ = roundCtx ⟨d.c, d.e + 18⟩
  norm_num

theorem decimal_to_quad_eq (d : PyDecimal) :
    decimal_to_quad d = intTrunc (roundCtx ⟨d.c, d.e + 18⟩) := by
  unfold decimal_to_quad
  rw [ctxMul_pow10]

theorem quad_to_decimal_eq (q : Int) :
    quad_to_decimal q = roundCtx ⟨q, -18⟩ := by
  show roundCtx ⟨q, 0 - ((18 : Nat) : Int)⟩ = roundCtx ⟨q, -18⟩
  norm_num

set_option maxRecDepth 8000 in
/-- C10 counterexample: the Decimal `10000000000.000000000000000001`
(coefficient `10^28 + 1`, exponent `-18`, so exactly 18 fractional digits)
does not survive the round trip: the context multiplication in
`decimal_to_quad` rounds its 29-digit scaled coefficient to the 28-digit
context precision, so `quad_to_decimal (decimal_to_quad d)` is numerically
`10^10`, not `d`. -/
theorem C10_counterexample :
    (-18 : Int) ≤ (PyDecimal.mk (10 ^ 28 + 1) (-18)).e ∧
    ¬ pyDecEq (quad_to_decimal (decimal_to_quad ⟨10 ^ 28 + 1, -18⟩))
      ⟨10 ^ 28 + 1, -18⟩ :=
  ⟨by decide, by decide⟩

/-- C10 (amended): the Quad fixed-point converters round-trip —
`quad_to_decimal (decimal_to_quad d)` is numerically equal to `d` — for
every Decimal with at most 18 fractional decimal digits whose coefficient
also fits in the 28-significant-digit context precision. -/
theorem C10_amended_roundtrip (d : PyDecimal) (hfrac : -18 ≤ d.e)
    (hc : d.c.natAbs < 10 ^ 28) :
    pyDecEq (quad_to_decimal (decimal_to_quad d)) d := by
  have he : (0 : Int) ≤ d.e + 18 := by omega
  rw [decimal_to_quad_eq, roundCtx_small ⟨d.c, d.e + 18⟩ hc]
  rw [show intTrunc ⟨d.c, d.e + 18⟩ = d.c * 10 ^ (d.e + 18).toNat from by
    simp [intTrunc, he]]
  rw [quad_to_decimal_eq]
  by_cases hbig : (d.c * 10 ^ (d.e + 18).toNat).natAbs < 10 ^ 28
  · rw [roundCtx_small _ hbig]
    unfold pyDecEq
    dsimp only
    rw [min_eq_left hfrac]
    rw [show ((-18 : Int) - (-18)).toNat = 0 from by norm_num,
      show ((d.e - (-18) : Int)).toNat = (d.e + 18).toNat from by omega,
      pow_zero, mul_one]
  · have habs : (d.c * 10 ^ (d.e + 18).toNat).natAbs
        = d.c.natAbs * 10 ^ (d.e + 18).toNat := by
      rw [Int.natAbs_mul, Int.natAbs_pow]
      norm_num
    have hnotle : ¬ numDigits (d.c * 10 ^ (d.e + 18).toNat).natAbs ≤
        PY_DEC_PREC := by
      intro hle
      exact hbig ((numDigits_le_iff _ 28 (by norm_num)).mp hle)
    have hP : PY_DEC_PREC = 28 := rfl
    rw [roundCtx_big ⟨d.c * 10 ^ (d.e + 18).toNat, -18⟩ hnotle]
    dsimp only
    rw [habs] at hbig hnotle ⊢
    have hX : d.c.natAbs * 10 ^ (d.e + 18).toNat <
        10 ^ (28 + (d.e + 18).toNat) := by
      rw [pow_add]
      exact Nat.mul_lt_mul_of_lt_of_le hc (Nat.le_refl _)
        (pow_pos (by norm_num) _)
    have hdig : numDigits (d.c.natAbs * 10 ^ (d.e + 18).toNat) ≤
        28 + (d.e + 18).toNat :=
      (numDigits_le_iff _ _ (by omega)).mpr hX
    have hkE : numDigits (d.c.natAbs * 10 ^ (d.e + 18).toNat) - PY_DEC_PREC ≤
        (d.e + 18).toNat := by omega
    have hdvd : 10 ^ (numDigits (d.c.natAbs * 10 ^ (d.e + 18).toNat) - PY_DEC_PREC) ∣
        d.c.natAbs * 10 ^ (d.e + 18).toNat :=
      Dvd.dvd.mul_left (pow_dvd_pow 10 hkE) _
    rw [rheDiv_exact _ _ hdvd]
    set k := numDigits (d.c.natAbs * 10 ^ (d.e + 18).toNat) - PY_DEC_PREC with hkdef
    have hc10 : (d.c.natAbs * 10 ^ (d.e + 18).toNat / 10 ^ k : Nat)
        = d.c.natAbs * 10 ^ ((d.e + 18).toNat - k) := by
      nth_rewrite 1 [show (d.e + 18).toNat = ((d.e + 18).toNat - k) + k from by omega]
      rw [pow_add, ← mul_assoc, Nat.mul_div_cancel _ (pow_pos (by norm_num) k)]
    unfold pyDecEq
    dsimp only
    rw [min_eq_left (by omega : (-18 : Int) + (k : Int) ≤ d.e)]
    rw [show ((-18 + (k : Int)) - (-18 + (k : Int))).toNat = 0 from by omega,
      show ((d.e - (-18 + (k : Int))).toNat) = (d.e + 18).toNat - k from by omega,
      pow_zero, mul_one, hc10]
    by_cases hsgn : d.c < 0
    · rw [if_pos (mul_neg_of_neg_of_pos hsgn (pow_pos (by norm_num) _))]
      rw [Nat.cast_mul, Nat.cast_pow, Int.ofNat_natAbs_of_nonpos (le_of_lt hsgn)]
      simp only [Nat.cast_ofNat]
      ring
    · push_neg at hsgn
      rw [if_neg (not_lt.mpr (mul_nonneg hsgn (by positivity)))]
      rw [Nat.cast_mul, Nat.cast_pow, Int.natAbs_of_nonneg hsgn]
      simp only [Nat.cast_ofNat]

theorem C10_amended_witness :
    pyDecEq (quad_to_decimal (decimal_to_quad ⟨-123456789, -5⟩)) ⟨-123456789, -5⟩ :=
  C10_amended_roundtrip ⟨-123456789, -5⟩ (by decide) (by decide)

